import Mathlib

/-!
Verification of the medical-services chatbot retrieval core.

This file gives a shallow embedding, in Lean 4, of the algorithmic core of the
repository:

* `services/hybrid_retriever.py` — the hybrid retrieval pipeline
  (category gating, fuzzy keyword prefilter, exact-match widening, soft
  payer/tier narrowing, safety floor, backfill, semantic re-rank, boosting and
  diversity-aware top-k selection);
* `services/knowledge_base.py` — the tier-segment splitter `_explode_tiers`
  and the final row-deduplication step of `parse_html_file`;
* `scripts/build_kb_index.py` — the batched index builder;
* `services/validators.py` and `services/router.py` — profile
  normalization/validation and the two router entry points.

Modelling conventions:

* Python strings are Lean `String`s; text normalisation (`.strip().lower()`,
  whitespace collapsing) is implemented over `List Char`, since those are the
  operations the kernel can evaluate.  Hebrew has no letter case, so the
  ASCII-only `Char.toLower` coincides with Python `str.lower` on all texts
  the system manipulates.
* Floating-point similarity scores are abstracted by integer-valued oracles:
  `wratio` abstracts `rapidfuzz.fuzz.WRatio` and `qsim` abstracts the
  composition of the (retried) embedding call with cosine similarity against
  the stored vectors; `qsim` returns `none` when the embedding service fails
  after exhausting its retries.  The boost factors 1.15 and 1.10 of the
  source are represented exactly: every candidate's score is `sim * boost`
  where `boost` is the product of two factors, each `115` or `110` on a base
  scale of `100` — a uniform positive scaling of the source's
  `sims * boosts`, so the induced ranking is the source's ranking.
* Python `set` union on candidate indices is modelled by an append that
  drops already-present elements; only membership and emptiness of the
  union are ever used downstream, and the index lists involved are
  duplicate-free.
* Embedding vectors are abstracted as `List Int`; only their positional
  correspondence with metadata matters to the claims.
-/

/-- Whitespace test used for Python's `strip` and the `\s` class of
`_clean_text` (ASCII fragment; all repository texts are ASCII/Hebrew). -/
def isWs (c : Char) : Bool := c.isWhitespace

/-- Python `s.strip()` over a character list. -/
def stripChars (cs : List Char) : List Char :=
  ((cs.dropWhile isWs).reverse.dropWhile isWs).reverse

/-- Python `s.lower()` over a character list (ASCII case folding; Hebrew is
caseless so this matches Python on the repository's data). -/
def lowerChars (cs : List Char) : List Char := cs.map Char.toLower

/-- Model of `_norm` of `hybrid_retriever.py`: `(s or "").strip().lower()`. -/
def normChars (s : String) : List Char := lowerChars (stripChars s.data)

/-- Boolean prefix test on character lists. -/
def prefixB : List Char → List Char → Bool
  | [], _ => true
  | _ :: _, [] => false
  | a :: as, b :: bs => a == b && prefixB as bs

/-- Boolean substring-containment test: Python's `needle in hay`. -/
def infixB (n : List Char) : List Char → Bool
  | [] => prefixB n []
  | c :: t => prefixB n (c :: t) || infixB n t

/-- One metadata record of the knowledge-base index: the six fields of a
`BenefitRow` as stored in `meta` (`hmo` is the payer). -/
structure MetaRow where
  category : String
  service : String
  hmo : String
  tier : String
  text : String
  source : String
deriving DecidableEq, Repr

/-- Default used to model Python's always-in-range list indexing. -/
def mRowDefault : MetaRow := ⟨"", "", "", "", "", ""⟩

/-- Lookup `meta[i]` of the retriever (indices produced by the pipeline are always
in range). -/
def metaAt (meta : List MetaRow) (i : Nat) : MetaRow := meta.getD i mRowDefault

/-- Table `_QUERY_SOURCE_HINTS` of `hybrid_retriever.py`, in source order. -/
def QUERY_SOURCE_HINTS : List (String × List String) :=
  [("שיניים", ["dentel_services.html"]), ("שן", ["dentel_services.html"]),
   ("dental", ["dentel_services.html"]), ("dent", ["dentel_services.html"]),
   ("אופטומטר", ["optometry_services.html"]), ("עדשות", ["optometry_services.html"]),
   ("משקפ", ["optometry_services.html"]), ("ראיה", ["optometry_services.html"]),
   ("ראייה", ["optometry_services.html"]), ("laser", ["optometry_services.html"]),
   ("optometry", ["optometry_services.html"]), ("lenses", ["optometry_services.html"]),
   ("דיקור", ["alternative_services.html"]), ("אקופונקטורה", ["alternative_services.html"]),
   ("שיאצו", ["alternative_services.html"]), ("רפואה משלימה", ["alternative_services.html"]),
   ("acupuncture", ["alternative_services.html"]), ("complementary", ["alternative_services.html"]),
   ("תקשורת", ["communication_clinic_services.html"]), ("גמגום", ["communication_clinic_services.html"]),
   ("בליעה", ["communication_clinic_services.html"]), ("speech", ["communication_clinic_services.html"]),
   ("הריון", ["pragrency_services.html"]), ("סקירה", ["pragrency_services.html"]),
   ("prenatal", ["pragrency_services.html"]), ("pregnan", ["pragrency_services.html"]),
   ("סדנא", ["workshops_services.html"]), ("סדנאות", ["workshops_services.html"]),
   ("עישון", ["workshops_services.html"]), ("wellness", ["workshops_services.html"]),
   ("workshop", ["workshops_services.html"])]

/-- Table `_SERVICE_SYNONYMS` of `hybrid_retriever.py`. -/
def SERVICE_SYNONYMS : List String :=
  ["עדשות", "contact lens", "contact lenses", "lenses",
   "טיפולי שיניים", "מרפאות שיניים", "טיפול שיניים", "dental", "dentistry", "tooth", "teeth",
   "לייזר", "laser", "vision correction"]

/-- Model of `_allowed_sources_for_query`: collect the source files of every hint key
contained in the normalised query.  The Python function returns a `set`;
only membership and emptiness are used, so a list of the same elements is an
adequate model. -/
def allowedSourcesForQuery (q : String) : List String :=
  let ql := normChars q
  (QUERY_SOURCE_HINTS.filter (fun kv => infixB kv.1.data ql)).flatMap (fun kv => kv.2)

/-- A Python optional-string argument is truthy when present and non-empty
(`if hmo:`). -/
def truthy : Option String → Bool
  | none => false
  | some s => !(s == "")

/-- Value of an optional hint (only read under `truthy`). -/
def hintVal (o : Option String) : String := o.getD ""

/-- Stable insertion of a scored index into a list sorted by descending
score: the new element goes after every element whose score is `≥` its own,
matching the stability of Python's `list.sort`. -/
def insertDesc (x : Nat × Int) : List (Nat × Int) → List (Nat × Int)
  | [] => [x]
  | y :: ys => if x.2 ≤ y.2 then y :: insertDesc x ys else x :: y :: ys

/-- Stable sort by descending score, modelling
`scored.sort(key=lambda x: x[1], reverse=True)` (and the descending order of
`np.argsort(-score)`). -/
def sortDesc : List (Nat × Int) → List (Nat × Int)
  | [] => []
  | x :: xs => insertDesc x (sortDesc xs)

/-- Best synonym score for a service: `max((WRatio(norm(syn), norm(svc))), default=0)`. -/
def synScore (wratio : String → String → Int) (svc : String) : Int :=
  SERVICE_SYNONYMS.foldr
    (fun syn acc => max (wratio ⟨normChars syn⟩ ⟨normChars svc⟩) acc) 0

/-- Model of `_keyword_filter` of `hybrid_retriever.py`: fuzzy prefilter by `service`
with optional source gating; keep the `k` best indices, or every index when
gating left nothing to score. -/
def keywordFilter (wratio : String → String → Int) (meta : List MetaRow)
    (q : String) (allowed : List String) (k : Nat) : List Nat :=
  let ql : String := ⟨normChars q⟩
  let scored := (meta.enum.filter
      (fun im => allowed.isEmpty || allowed.contains im.2.source)).map
    (fun im => (im.1, max (wratio ql ⟨normChars im.2.service⟩) (synScore wratio im.2.service)))
  let top := ((sortDesc scored).take k).map (fun x => x.1)
  if top.isEmpty then List.range meta.length else top

/-- Python `list(set(a) | set(b))` on index lists, kept in a deterministic
order; membership-equivalent to the set union. -/
def unionIdx (a b : List Nat) : List Nat := a ++ b.filter (fun i => !(a.contains i))

/-- Soft narrowing step 2/3 of `search`: restrict to the matching candidates
when at least one matches, otherwise keep the candidate set unchanged. -/
def softNarrow (cand : List Nat) (p : Nat → Bool) : List Nat :=
  let only := cand.filter p
  if only.isEmpty then cand else only

/-- The rows eligible for the exact-widening pool: within gated sources (if
any) and exactly matching both hints. -/
def tierPoolOf (meta : List MetaRow) (allowed : List String)
    (hmo tier : Option String) : List Nat :=
  (meta.enum.filter (fun im =>
      (allowed.isEmpty || allowed.contains im.2.source)
      && im.2.hmo == hintVal hmo && im.2.tier == hintVal tier)).map (fun im => im.1)

/-- Exact-match widening of `search`: when both hints are truthy and the
exact pool is non-empty, union it into the candidates. -/
def widenExact (meta : List MetaRow) (allowed : List String) (cand : List Nat)
    (hmo tier : Option String) : List Nat :=
  if truthy hmo && truthy tier then
    let tierPool := tierPoolOf meta allowed hmo tier
    if !tierPool.isEmpty then unionIdx cand tierPool else cand
  else cand

/-- Soft payer narrowing (step 2 of `search`). -/
def narrowHmo (meta : List MetaRow) (cand : List Nat) (hmo : Option String) : List Nat :=
  if truthy hmo then softNarrow cand (fun i => (metaAt meta i).hmo == hintVal hmo)
  else cand

/-- Soft tier narrowing (step 3 of `search`). -/
def narrowTier (meta : List MetaRow) (cand : List Nat) (tier : Option String) : List Nat :=
  if truthy tier then softNarrow cand (fun i => (metaAt meta i).tier == hintVal tier)
  else cand

/-- The safety reset of `search`: an empty candidate list falls back to the
whole knowledge base. -/
def safetyFloor (meta : List MetaRow) (cand : List Nat) : List Nat :=
  if cand.isEmpty then List.range meta.length else cand

/-- The backfill block of `search`: when both hints are truthy but no
candidate matches both exactly, union in every same-payer row (within gated
sources). -/
def backfill (meta : List MetaRow) (allowed : List String) (cand : List Nat)
    (hmo tier : Option String) : List Nat :=
  if truthy hmo && truthy tier then
    let exact := cand.filter (fun i =>
      (metaAt meta i).hmo == hintVal hmo && (metaAt meta i).tier == hintVal tier)
    if exact.isEmpty then
      let sameHmo := (List.range meta.length).filter
        (fun i => (metaAt meta i).hmo == hintVal hmo)
      let sameHmo2 := if !allowed.isEmpty
        then sameHmo.filter (fun i => allowed.contains (metaAt meta i).source)
        else sameHmo
      unionIdx cand sameHmo2
    else cand
  else cand

/-- Candidate pipeline of `HybridRetriever.search` up to (and including) the
backfill block: exactly the candidate index list handed to the semantic
re-rank, as the composition of the source's numbered steps. -/
def candidatesForRerank (wratio : String → String → Int) (meta : List MetaRow)
    (query : String) (hmo tier : Option String) : List Nat :=
  let allowed := allowedSourcesForQuery query
  backfill meta allowed
    (safetyFloor meta
      (narrowTier meta
        (narrowHmo meta
          (widenExact meta allowed (keywordFilter wratio meta query allowed 200) hmo tier)
          hmo)
        tier))
    hmo tier

/-- The augmented query text embedded for re-ranking:
`query + " HMO:h" + " Tier:t"` for the truthy hints. -/
def augmentQuery (query : String) (hmo tier : Option String) : String :=
  query ++ (if truthy hmo then " HMO:" ++ hintVal hmo else "")
        ++ (if truthy tier then " Tier:" ++ hintVal tier else "")

/-- One result record of `search` (`score` on the integer scale described in
the header). -/
structure SearchResult where
  score : Int
  category : String
  service : String
  hmo : String
  tier : String
  text : String
  source : String
deriving DecidableEq, Repr

/-- Key used for diversity selection: `(service, hmo, tier)`. -/
def resultKey (m : MetaRow) : String × String × String := (m.service, m.hmo, m.tier)

/-- Step 7 of `search`: walk the score-sorted window, keep the first
occurrence of each `(service, hmo, tier)` key, and stop as soon as `top_k`
results have been collected (the stop test runs after each append, matching
`if len(results) >= top_k: break`). -/
def selectDiverse (meta : List MetaRow) (topK : Nat) :
    List (Nat × Int) → List (String × String × String) → List SearchResult → List SearchResult
  | [], _, acc => acc.reverse
  | (mi, sc) :: rest, seen, acc =>
    let m := metaAt meta mi
    if seen.contains (resultKey m) then selectDiverse meta topK rest seen acc
    else
      let r : SearchResult := ⟨sc, m.category, m.service, m.hmo, m.tier, m.text, m.source⟩
      if topK ≤ acc.length + 1 then (r :: acc).reverse
      else selectDiverse meta topK rest (resultKey m :: seen) (r :: acc)

/-- Boosted score of candidate index `mi` (steps 5–6 of `search`): the
source's `sims[i] * boosts[i]` under the uniform `100 × 100` scaling. -/
def boostedScore (sim : Nat → Int) (meta : List MetaRow) (hmo tier : Option String)
    (mi : Nat) : Int :=
  sim mi * ((if truthy hmo && (metaAt meta mi).hmo == hintVal hmo then 115 else 100)
          * (if truthy tier && (metaAt meta mi).tier == hintVal tier then 110 else 100))

/-- Model of `HybridRetriever.search`.  Here `wratio` abstracts `fuzz.WRatio`; `qsim`
abstracts the retried embedding call composed with cosine similarity against
the stored vectors (`none` = the embedding service failed after its retries,
which the source propagates as an exception). -/
def search (wratio : String → String → Int) (qsim : String → Option (Nat → Int))
    (meta : List MetaRow) (query : String) (hmo tier : Option String)
    (topK : Nat) : Except String (List SearchResult) :=
  let cand := candidatesForRerank wratio meta query hmo tier
  match qsim (augmentQuery query hmo tier) with
  | none => Except.error "UpstreamServiceError: embedding retries exhausted"
  | some sim =>
    let scored := cand.map (fun mi => (mi, boostedScore sim meta hmo tier mi))
    let window := (sortDesc scored).take (max (topK * 2) 10)
    Except.ok (selectDiverse meta topK window [] [])

example :
    search (fun _ _ => 50) (fun _ => some (fun i => (i : Int)))
      [⟨"c", "s", "מכבי", "זהב", "t", "f.html"⟩] "hello" (some "מכבי") (some "זהב") 3 =
    Except.ok [⟨0 * (115 * 110), "c", "s", "מכבי", "זהב", "t", "f.html"⟩] := by rfl

/-! ## `services/knowledge_base.py`: tier splitting and row dedup -/

/-- Whitespace-run collapsing for `_clean_text`; the flag records whether the
previous character was whitespace (used only on stripped text, so the flag
starts `false`). -/
def collapseWsAux : Bool → List Char → List Char
  | _, [] => []
  | prevWs, c :: rest =>
    if isWs c then
      if prevWs then collapseWsAux true rest
      else ' ' :: collapseWsAux true rest
    else c :: collapseWsAux false rest

/-- Model of `_clean_text`: strip, then replace each whitespace run by one space. -/
def cleanChars (cs : List Char) : List Char := collapseWsAux false (stripChars cs)

/-- Model of `_clean_text` on strings. -/
def cleanText (s : String) : String := ⟨cleanChars s.data⟩

/-- The tier label alternation of `_explode_tiers`, in the order the regex
lists them (all six begin with distinct characters, so at most one can match
at any position). -/
def TIER_LABELS : List String := ["זהב", "gold", "כסף", "silver", "ארד", "bronze"]

/-- Table `_TIER_CANON_BY_TOKEN`: lowercased alias token to canonical tier. -/
def TIER_CANON_BY_TOKEN : List (String × String) :=
  [("זהב", "זהב"), ("gold", "זהב"), ("כסף", "כסף"), ("silver", "כסף"),
   ("ארד", "ארד"), ("bronze", "ארד")]

/-- Lookup `_TIER_CANON_BY_TOKEN.get(tok, "")`. -/
def tierCanon (tok : String) : String :=
  ((TIER_CANON_BY_TOKEN.find? (fun kv => kv.1 == tok)).map (fun kv => kv.2)).getD ""

/-- Try the regex fragment `label\s*:\s*` (case-insensitive, greedy) at the
head of `cs`; returns the lowercased label together with the total matched
length. -/
def matchTierAt1 (lab : String) (cs : List Char) : Option (String × Nat) :=
  let lc := lab.data
  if lowerChars (cs.take lc.length) == lowerChars lc then
    let rest := cs.drop lc.length
    let w1 := (rest.takeWhile isWs).length
    match rest.drop w1 with
    | ':' :: rest3 => some (lab, lc.length + w1 + 1 + (rest3.takeWhile isWs).length)
    | _ => none
  else none

/-- First alternative of the label group matching at the head of `cs`
(Python alternation order; the labels have pairwise distinct first
characters, so at most one fits). -/
def matchTierAt (cs : List Char) : Option (String × Nat) :=
  TIER_LABELS.findSome? (fun lab => matchTierAt1 lab cs)

/-- Model of `pat.finditer(text)`: left-to-right, non-overlapping scan; each match is
`(lowercased label, start, end)`.  Structural recursion on a fuel argument;
every match consumes at least two characters, so fuel equal to the text
length is always sufficient. -/
def scanTiers (embedFuel : Nat) (cs : List Char) (pos : Nat) :
    List (String × Nat × Nat) :=
  match embedFuel, cs with
  | 0, _ => []
  | _, [] => []
  | fuel + 1, c :: rest =>
    match matchTierAt (c :: rest) with
    | some (lab, len) =>
      (lab, pos, pos + len) :: scanTiers fuel (rest.drop (len - 1)) (pos + len)
    | none => scanTiers fuel rest (pos + 1)

/-- All tier-label matches of a text. -/
def tierMatches (cs : List Char) : List (String × Nat × Nat) := scanTiers cs.length cs 0

/-- The per-match chunks of `_explode_tiers`: the slice from each match's
end to the next match's start (or the end of the text), kept only when its
cleaned form is non-empty. -/
def chunksFrom (cs : List Char) : List (String × Nat × Nat) → List (String × String)
  | [] => []
  | m :: rest =>
    let stop := match rest with
      | [] => cs.length
      | m2 :: _ => m2.2.1
    let raw := (cs.drop m.2.2).take (stop - m.2.2)
    let cleaned := cleanChars raw
    if cleaned.isEmpty then chunksFrom cs rest
    else (tierCanon m.1, (⟨cleaned⟩ : String)) :: chunksFrom cs rest

/-- First-occurrence deduplication against an accumulator of already seen
elements; models both the `(tier, text)` dedup inside `_explode_tiers` and
the full-tuple dict dedup of `parse_html_file` (a Python dict keyed by the
whole element keeps first-occurrence order, and the overwritten value is the
element itself, so later duplicates change nothing). -/
def dedupFirst {α : Type} [BEq α] : List α → List α → List α
  | [], _ => []
  | x :: rest, seen =>
    if seen.contains x then dedupFirst rest seen
    else x :: dedupFirst rest (x :: seen)

/-- Model of `_explode_tiers`: split a cell text into `(tier, text)` segments. -/
def explodeTiers (text : String) : List (String × String) :=
  if text == "" then []
  else
    let cs := text.data
    let ms := tierMatches cs
    if ms.isEmpty then [("", cleanText text)]
    else
      let uniq := dedupFirst (chunksFrom cs ms) []
      if uniq.isEmpty then [("", cleanText text)] else uniq

example : explodeTiers "זהב: a כסף: b" = [("זהב", "a"), ("כסף", "b")] := by rfl
example : explodeTiers "hello world" = [("", "hello world")] := by rfl
example : explodeTiers "intro gold:" = [("", "intro gold:")] := by rfl

/-- The final step of `parse_html_file`: drop rows with empty text, then
deduplicate by the full six-field tuple (the row itself). -/
def parseDedup (rows : List MetaRow) : List MetaRow :=
  dedupFirst (rows.filter (fun r => !(r.text == ""))) []

/-! ## `scripts/build_kb_index.py`: the index builder -/

/-- Model of `make_chunk_text`: the canonical embedding input of a row. -/
def makeChunkText (r : MetaRow) : String :=
  r.category ++ " | " ++ r.service ++ " | HMO:" ++ r.hmo ++ " | Tier:" ++ r.tier
    ++ "\n" ++ r.text

/-- The metadata record the builder stores for a row (the same six fields,
copied). -/
def indexMetaOf (r : MetaRow) : MetaRow :=
  ⟨r.category, r.service, r.hmo, r.tier, r.text, r.source⟩

/-- One embedding batch: the external service returns one vector per input
in input order (spec of the embedding interface), and the whole batch fails
when the retried call fails.  `embedOne` abstracts the per-text outcome. -/
def mapOpt {α β : Type} (f : α → Option β) : List α → Option (List β)
  | [] => some []
  | a :: as =>
    match f a, mapOpt f as with
    | some b, some bs => some (b :: bs)
    | _, _ => none

/-- The batching loop of `main` in `build_kb_index.py` (`BATCH = 64`): embed
each batch of 64 rows, concatenate vectors in input order, and append one
metadata record per row.  Any failing batch aborts the whole build with no
partial result.  Structural recursion on a fuel argument; each step consumes
at least one row, so fuel equal to the row count is always sufficient. -/
def buildBatches (embedOne : String → Option (List Int)) :
    Nat → List MetaRow → Option (List (List Int) × List MetaRow)
  | _, [] => some ([], [])
  | 0, _ :: _ => none
  | fuel + 1, r :: rest =>
    let batch := r :: rest.take 63
    match mapOpt (fun x => embedOne (makeChunkText x)) batch with
    | none => none
    | some vecs =>
      match buildBatches embedOne fuel (rest.drop 63) with
      | none => none
      | some (xs, meta) => some (vecs ++ xs, batch.map indexMetaOf ++ meta)

/-- Model of `main` of `build_kb_index.py` up to the point where the artifact is
written: `some (X, meta)` is what `np.savez_compressed` persists; `none`
means an embedding batch failed, the exception propagated, and nothing was
written. -/
def buildIndex (embedOne : String → Option (List Int)) (rows : List MetaRow) :
    Option (List (List Int) × List MetaRow) :=
  buildBatches embedOne rows.length rows

example :
    buildIndex (fun s => some [(s.length : Int)]) [⟨"c", "s", "h", "t", "x", "f"⟩]
      = some ([[(24 : Int)]], [⟨"c", "s", "h", "t", "x", "f"⟩]) := by rfl

/-! ## `services/validators.py` and `services/router.py` -/

/-- Table `HMO_CANON` of `validators.py`. -/
def HMO_CANON : List (String × String) :=
  [("מכבי", "מכבי"), ("מאוחדת", "מאוחדת"), ("כללית", "כללית"),
   ("maccabi", "מכבי"), ("clalit", "כללית"), ("meuhedet", "מאוחדת")]

/-- Table `TIER_CANON` of `validators.py`. -/
def TIER_CANON : List (String × String) :=
  [("זהב", "זהב"), ("כסף", "כסף"), ("ארד", "ארד"),
   ("gold", "זהב"), ("silver", "כסף"), ("bronze", "ארד")]

/-- Model of `normalize_hmo`: strip, lowercase, table lookup. -/
def normalizeHmo (s : String) : Option String :=
  (HMO_CANON.find? (fun kv => kv.1.data == normChars s)).map (fun kv => kv.2)

/-- Model of `normalize_tier`: strip, lowercase, table lookup. -/
def normalizeTier (s : String) : Option String :=
  (TIER_CANON.find? (fun kv => kv.1.data == normChars s)).map (fun kv => kv.2)

/-- Model of `is_valid_id`: the stripped string is exactly nine ASCII digits. -/
def isValidId (s : String) : Bool :=
  let t := stripChars s.data
  t.length == 9 && t.all Char.isDigit

/-- Integer parse modelling Python `int(s)` on the inputs the validator can
receive (optional sign, decimal digits, surrounding whitespace). -/
def parseIntStr (s : String) : Option Int :=
  let digits (ds : List Char) : Option Nat :=
    if ds.isEmpty || !(ds.all Char.isDigit) then none
    else some (ds.foldl (fun acc c => acc * 10 + (c.toNat - 48)) 0)
  match stripChars s.data with
  | '-' :: ds => (digits ds).map (fun n => -(n : Int))
  | '+' :: ds => (digits ds).map (fun n => (n : Int))
  | ds => (digits ds).map (fun n => (n : Int))

/-- Model of `is_valid_age`: parses as an integer between 0 and 120. -/
def isValidAge (s : String) : Bool :=
  match parseIntStr s with
  | none => false
  | some v => decide (0 ≤ v ∧ v ≤ 120)

/-- The user profile (dict in the source; `none` models an absent or null
field, the age is carried in its string form). -/
structure Profile where
  first_name : Option String := none
  last_name : Option String := none
  id : Option String := none
  gender : Option String := none
  age : Option String := none
  hmo : Option String := none
  hmo_card : Option String := none
  tier : Option String := none
deriving DecidableEq, Repr

/-- The hmo/tier branch of `validate_profile`: when the field is present
and non-empty, either record an error (unknown value, field kept as-is) or
replace the field by its canonical form. -/
def normalizeFieldStep (f : String → Option String) (errName errMsg : String)
    (v : Option String) : List (String × String) × Option String :=
  if truthy v then
    match f (hintVal v) with
    | none => ([(errName, errMsg)], v)
    | some h => ([], some h)
  else ([], v)

/-- Model of `validate_profile`: returns the field-error list and the profile after
the in-place canonicalisation of `hmo` and `tier` (the source mutates the
dict it was given and returns only the errors). -/
def validateProfile (p : Profile) : List (String × String) × Profile :=
  let eId := if truthy p.id && !(isValidId (hintVal p.id))
    then [("id", "ID must be 9 digits.")] else []
  let eAge := if truthy p.age && !(isValidAge (hintVal p.age))
    then [("age", "Age must be between 0 and 120.")] else []
  let hmoStep := normalizeFieldStep normalizeHmo "hmo" "Unknown HMO." p.hmo
  let eCard := if truthy p.hmo_card && !(isValidId (hintVal p.hmo_card))
    then [("hmo_card", "HMO card must be 9 digits.")] else []
  let tierStep := normalizeFieldStep normalizeTier "tier" "Unknown tier." p.tier
  (eId ++ eAge ++ hmoStep.1 ++ eCard ++ tierStep.1,
   { p with hmo := hmoStep.2, tier := tierStep.2 })

/-- One tool invocation in the chat-model response.  `args = none` models a
`json.loads` failure (the source then falls back to an empty dict). -/
structure ToolCall where
  ctype : String
  name : String
  args : Option Profile
deriving DecidableEq, Repr

/-- One field of the `keep`-loop of `collect_user_info`: a submitted value
overrides the old one only when it is neither absent nor empty. -/
def mergeField (old new : Option String) : Option String :=
  match new with
  | none => old
  | some v => if v == "" then old else some v

/-- The `keep`-loop of `collect_user_info` over the eight profile fields. -/
def mergeArgs (p args : Profile) : Profile :=
  ⟨mergeField p.first_name args.first_name, mergeField p.last_name args.last_name,
   mergeField p.id args.id, mergeField p.gender args.gender,
   mergeField p.age args.age, mergeField p.hmo args.hmo,
   mergeField p.hmo_card args.hmo_card, mergeField p.tier args.tier⟩

/-- The tool-call loop of `collect_user_info`: every `submit_profile`
function call merges its arguments into the profile, runs
`validate_profile` (whose canonicalisation sticks, whose errors are
discarded) and sets the confirmation flag. -/
def processToolCalls (p : Profile) (confirmed : Bool) :
    List ToolCall → Profile × Bool
  | [] => (p, confirmed)
  | c :: rest =>
    if c.ctype == "function" && c.name == "submit_profile" then
      processToolCalls (validateProfile (mergeArgs p (c.args.getD {}))).2 true rest
    else processToolCalls p confirmed rest

/-- The canned confirmation shown when the model returned only a tool call
and no user-visible text. -/
def PROFILE_CONFIRMED_MSG : String :=
  "✅ הפרופיל אושר. אפשר לשאול שאלות על ההטבות לפי הקופה והרמה שלך."

/-- Model of `ChatRouter.collect_user_info`, given the parsed model response (the
first choice's content and tool calls): returns the visible text, the
updated profile and the confirmation flag. -/
def collectUserInfo (choiceContent : Option String) (toolCalls : List ToolCall)
    (userProfile : Profile) : String × Profile × Bool :=
  let content0 : String := ⟨stripChars (choiceContent.getD "").data⟩
  if toolCalls.isEmpty then (content0, userProfile, false)
  else
    let pc := processToolCalls userProfile false toolCalls
    ((if content0 == "" then PROFILE_CONFIRMED_MSG else content0), pc.1, pc.2)

/-- One chat message. -/
structure ChatMsg where
  role : String
  content : String
deriving DecidableEq, Repr

/-- Hebrew code-point test of `detect_lang`. -/
def isHebrewChar (c : Char) : Bool := 0x590 ≤ c.toNat && c.toNat ≤ 0x5FF

/-- Model of `detect_lang` of `utils/i18n.py`. -/
def detectLang (messages : List ChatMsg) : String :=
  match ((messages.filter (fun m => m.role == "user")).map (fun m => m.content)).getLast? with
  | none => "he"
  | some lastMsg => if lastMsg.data.any isHebrewChar then "he" else "en"

/-- The query of `answer_question`: the latest user message. -/
def lastUserText (messages : List ChatMsg) : Option String :=
  ((messages.filter (fun m => m.role == "user")).map (fun m => m.content)).getLast?

/-- The canned no-match answers of `answer_question`. -/
def NO_MATCH_HE : String :=
  "לא מצאתי התאמה במאגר שסיפקת. אפשר לנסח אחרת או לבחור קטגוריה אחרת?"

/-- English canned no-match answer. -/
def NO_MATCH_EN : String :=
  "I couldn’t find a match in the provided knowledge base. Please rephrase or choose another category."

/-- Resolution `language_hint or detect_lang(messages)`. -/
def resolvedLang (languageHint : Option String) (messages : List ChatMsg) : String :=
  if truthy languageHint then hintVal languageHint else detectLang messages

/-- Model of `ChatRouter.answer_question`.  Here `searchFn` is the retriever collaborator
(`HybridRetriever.search`, called with the profile's payer/tier hints and
`top_k = 5`); `chatFn` abstracts `build_qa_messages` composed with the chat
completion, taking the conversation, normalised language, snippets and
profile. -/
def answerQuestion
    (searchFn : String → Option String → Option String → Nat → List SearchResult)
    (chatFn : List ChatMsg → String → List SearchResult → Profile → String)
    (kbLoaded : Bool) (messages : List ChatMsg) (userProfile : Profile)
    (languageHint : Option String) : Except String (String × List SearchResult) :=
  if !kbLoaded then Except.error "KB not initialized"
  else
    let lang := resolvedLang languageHint messages
    match lastUserText messages with
    | none => Except.error "No user query found."
    | some query =>
      let snippets := searchFn query userProfile.hmo userProfile.tier 5
      if snippets.isEmpty then
        Except.ok ((if lang == "he" then NO_MATCH_HE else NO_MATCH_EN), [])
      else
        Except.ok (chatFn messages (if lang == "he" then "he" else "en") snippets userProfile, snippets)

example :
    collectUserInfo (some " hi ") [] {} = ("hi", {}, false) := by rfl
example :
    (collectUserInfo none [⟨"function", "submit_profile", some { hmo := some "Maccabi" }⟩] {}).2 =
      ({ hmo := some "מכבי" }, true) := by rfl
example :
    answerQuestion (fun _ _ _ _ => []) (fun _ _ _ _ => "ans") true
      [⟨"user", "hello"⟩] {} none = Except.ok (NO_MATCH_EN, []) := by rfl

/-! ## Lemmas about the sort and the diversity selection -/

theorem insertDesc_perm (x : Nat × Int) (l : List (Nat × Int)) :
    List.Perm (insertDesc x l) (x :: l) := by
  induction l with
  | nil => simp [insertDesc]
  | cons y ys ih =>
    simp only [insertDesc]
    split
    · exact (ih.cons y).trans (List.Perm.swap x y ys)
    · exact List.Perm.refl _

theorem sortDesc_perm (l : List (Nat × Int)) : List.Perm (sortDesc l) l := by
  induction l with
  | nil => simp [sortDesc]
  | cons x xs ih => exact (insertDesc_perm x (sortDesc xs)).trans (ih.cons x)

theorem insertDesc_pairwise (x : Nat × Int) (l : List (Nat × Int))
    (hl : l.Pairwise (fun a b => b.2 ≤ a.2)) :
    (insertDesc x l).Pairwise (fun a b => b.2 ≤ a.2) := by
  induction l with
  | nil => simp [insertDesc]
  | cons y ys ih =>
    simp only [insertDesc]
    rcases List.pairwise_cons.mp hl with ⟨hy, hys⟩
    split
    · rename_i hle
      refine List.pairwise_cons.mpr ⟨?_, ih hys⟩
      intro b hb
      have := (insertDesc_perm x ys).mem_iff.mp hb
      rcases List.mem_cons.mp this with rfl | hmem
      · exact hle
      · exact hy b hmem
    · rename_i hgt
      push_neg at hgt
      refine List.pairwise_cons.mpr ⟨?_, hl⟩
      intro b hb
      rcases List.mem_cons.mp hb with rfl | hmem
      · exact le_of_lt hgt
      · exact le_trans (hy b hmem) (le_of_lt hgt)

theorem sortDesc_pairwise (l : List (Nat × Int)) :
    (sortDesc l).Pairwise (fun a b => b.2 ≤ a.2) := by
  induction l with
  | nil => simp [sortDesc]
  | cons x xs ih => exact insertDesc_pairwise x (sortDesc xs) ih

/-- The result record built for a scored candidate index. -/
def mkResult (meta : List MetaRow) (p : Nat × Int) : SearchResult :=
  let m := metaAt meta p.1
  ⟨p.2, m.category, m.service, m.hmo, m.tier, m.text, m.source⟩

/-- The `(service, hmo, tier)` key of a result record. -/
def resultKeyR (r : SearchResult) : String × String × String := (r.service, r.hmo, r.tier)

theorem selectDiverse_mem (meta : List MetaRow) (topK : Nat) :
    ∀ (items : List (Nat × Int)) (seen : List (String × String × String))
      (acc : List SearchResult) (r : SearchResult),
      r ∈ selectDiverse meta topK items seen acc →
      r ∈ acc ∨ ∃ p ∈ items, r = mkResult meta p := by
  intro items
  induction items with
  | nil =>
    intro seen acc r hr
    simp only [selectDiverse, List.mem_reverse] at hr
    exact Or.inl hr
  | cons hd rest ih =>
    intro seen acc r hr
    obtain ⟨mi, sc⟩ := hd
    simp only [selectDiverse] at hr
    split at hr
    · rcases ih _ _ _ hr with h | ⟨p, hp, hpe⟩
      · exact Or.inl h
      · exact Or.inr ⟨p, List.mem_cons_of_mem _ hp, hpe⟩
    · split at hr
      · rw [List.mem_reverse, List.mem_cons] at hr
        rcases hr with rfl | h
        · exact Or.inr ⟨(mi, sc), List.mem_cons_self _ _, rfl⟩
        · exact Or.inl h
      · rcases ih _ _ _ hr with h | ⟨p, hp, hpe⟩
        · rcases List.mem_cons.mp h with rfl | h2
          · exact Or.inr ⟨(mi, sc), List.mem_cons_self _ _, rfl⟩
          · exact Or.inl h2
        · exact Or.inr ⟨p, List.mem_cons_of_mem _ hp, hpe⟩

theorem selectDiverse_acc_mem (meta : List MetaRow) (topK : Nat) :
    ∀ (items : List (Nat × Int)) (seen : List (String × String × String))
      (acc : List SearchResult) (r : SearchResult),
      r ∈ acc → r ∈ selectDiverse meta topK items seen acc := by
  intro items
  induction items with
  | nil =>
    intro seen acc r hr
    simpa [selectDiverse] using hr
  | cons hd rest ih =>
    intro seen acc r hr
    obtain ⟨mi, sc⟩ := hd
    simp only [selectDiverse]
    split
    · exact ih _ _ _ hr
    · split
      · simp only [List.mem_reverse, List.mem_cons]
        exact Or.inr hr
      · exact ih _ _ _ (List.mem_cons_of_mem _ hr)

theorem selectDiverse_ne_nil (meta : List MetaRow) (topK : Nat)
    (items : List (Nat × Int)) (hne : items ≠ []) :
    selectDiverse meta topK items [] [] ≠ [] := by
  match items, hne with
  | (mi, sc) :: rest, _ =>
    rw [show selectDiverse meta topK ((mi, sc) :: rest) [] [] =
        if topK ≤ 1 then [mkResult meta (mi, sc)]
        else selectDiverse meta topK rest [resultKey (metaAt meta mi)]
          [mkResult meta (mi, sc)] from rfl]
    split
    · simp
    · intro hcontra
      have hm : mkResult meta (mi, sc) ∈ selectDiverse meta topK rest
          [resultKey (metaAt meta mi)] [mkResult meta (mi, sc)] :=
        selectDiverse_acc_mem meta topK rest _ _ _ (by simp)
      rw [hcontra] at hm
      exact (List.not_mem_nil _) hm

theorem selectDiverse_length (meta : List MetaRow) (topK : Nat) :
    ∀ (items : List (Nat × Int)) (seen : List (String × String × String))
      (acc : List SearchResult), acc.length < topK →
      (selectDiverse meta topK items seen acc).length ≤ topK := by
  intro items
  induction items with
  | nil =>
    intro seen acc hlen
    simpa [selectDiverse] using le_of_lt hlen
  | cons hd rest ih =>
    intro seen acc hlen
    obtain ⟨mi, sc⟩ := hd
    simp only [selectDiverse]
    split
    · exact ih _ _ hlen
    · split
      · rename_i hstop
        simpa using hlen
      · rename_i hcont
        push_neg at hcont
        exact ih _ _ (by simpa using hcont)

theorem selectDiverse_keys_nodup (meta : List MetaRow) (topK : Nat) :
    ∀ (items : List (Nat × Int)) (seen : List (String × String × String))
      (acc : List SearchResult),
      (acc.map resultKeyR).Nodup →
      (∀ r ∈ acc, resultKeyR r ∈ seen) →
      ((selectDiverse meta topK items seen acc).map resultKeyR).Nodup := by
  intro items
  induction items with
  | nil =>
    intro seen acc hnd _
    simpa [selectDiverse] using hnd
  | cons hd rest ih =>
    intro seen acc hnd hseen
    obtain ⟨mi, sc⟩ := hd
    simp only [selectDiverse]
    split
    · exact ih _ _ hnd hseen
    · rename_i hnotseen
      have hfresh : resultKey (metaAt meta mi) ∉ seen := by
        intro hmem
        exact hnotseen (List.elem_eq_true_of_mem hmem)
      split
      · rw [List.map_reverse]
        rw [List.nodup_reverse, List.map_cons]
        refine List.nodup_cons.mpr ⟨?_, hnd⟩
        intro hmem
        rcases List.mem_map.mp hmem with ⟨r, hr, hkey⟩
        have hk2 : resultKeyR r = resultKey (metaAt meta mi) := hkey
        exact hfresh (hk2 ▸ hseen r hr)
      · refine ih _ _ ?_ ?_
        · rw [List.map_cons]
          refine List.nodup_cons.mpr ⟨?_, hnd⟩
          intro hmem
          rcases List.mem_map.mp hmem with ⟨r, hr, hkey⟩
          have hk2 : resultKeyR r = resultKey (metaAt meta mi) := hkey
          exact hfresh (hk2 ▸ hseen r hr)
        · intro r hr
          rcases List.mem_cons.mp hr with rfl | hmem
          · exact List.mem_cons_self _ _
          · exact List.mem_cons_of_mem _ (hseen r hmem)

theorem selectDiverse_sorted (meta : List MetaRow) (topK : Nat) :
    ∀ (items : List (Nat × Int)) (seen : List (String × String × String))
      (acc : List SearchResult),
      items.Pairwise (fun a b => b.2 ≤ a.2) →
      acc.Pairwise (fun a b => a.score ≤ b.score) →
      (∀ r ∈ acc, ∀ p ∈ items, p.2 ≤ r.score) →
      (selectDiverse meta topK items seen acc).Pairwise
        (fun a b => b.score ≤ a.score) := by
  intro items
  induction items with
  | nil =>
    intro seen acc _ hacc _
    simp only [selectDiverse]
    rw [List.pairwise_reverse]
    exact hacc
  | cons hd rest ih =>
    intro seen acc hitems hacc hcross
    obtain ⟨mi, sc⟩ := hd
    rcases List.pairwise_cons.mp hitems with ⟨hhd, htail⟩
    simp only [selectDiverse]
    split
    · refine ih _ _ htail hacc ?_
      intro r hr p hp
      exact hcross r hr p (List.mem_cons_of_mem _ hp)
    · split
      · rw [List.pairwise_reverse]
        refine List.pairwise_cons.mpr ⟨?_, hacc⟩
        intro b hb
        exact hcross b hb (mi, sc) (List.mem_cons_self _ _)
      · refine ih _ _ htail ?_ ?_
        · refine List.pairwise_cons.mpr ⟨?_, hacc⟩
          intro b hb
          exact hcross b hb (mi, sc) (List.mem_cons_self _ _)
        · intro r hr p hp
          rcases List.mem_cons.mp hr with rfl | hmem
          · exact hhd p hp
          · exact hcross r hmem p (List.mem_cons_of_mem _ hp)

/-! ## Lemmas about the candidate pipeline -/

theorem mem_unionIdx_left {a b : List Nat} {i : Nat} (h : i ∈ a) : i ∈ unionIdx a b :=
  List.mem_append.mpr (Or.inl h)

theorem mem_unionIdx_right {a b : List Nat} {i : Nat} (h : i ∈ b) : i ∈ unionIdx a b := by
  by_cases ha : i ∈ a
  · exact mem_unionIdx_left ha
  · refine List.mem_append.mpr (Or.inr ?_)
    refine List.mem_filter.mpr ⟨h, ?_⟩
    simp only [Bool.not_eq_true']
    exact (Bool.not_eq_true _).mp (fun hc => ha (List.mem_of_elem_eq_true hc))

theorem unionIdx_ne_nil_left {a b : List Nat} (ha : a ≠ []) : unionIdx a b ≠ [] := by
  intro h
  rcases List.append_eq_nil.mp h with ⟨h1, _⟩
  exact ha h1

theorem unionIdx_subset {a b : List Nat} {i : Nat} (h : i ∈ unionIdx a b) :
    i ∈ a ∨ i ∈ b := by
  rcases List.mem_append.mp h with h1 | h2
  · exact Or.inl h1
  · exact Or.inr (List.mem_filter.mp h2).1

theorem softNarrow_of_filter_nil {cand : List Nat} {p : Nat → Bool}
    (h : cand.filter p = []) : softNarrow cand p = cand := by
  simp [softNarrow, h]

theorem softNarrow_of_mem {cand : List Nat} {p : Nat → Bool} {i : Nat}
    (hi : i ∈ cand) (hp : p i = true) : softNarrow cand p = cand.filter p := by
  have hne : cand.filter p ≠ [] := by
    intro h
    have : i ∈ cand.filter p := List.mem_filter.mpr ⟨hi, hp⟩
    rw [h] at this
    exact (List.not_mem_nil _) this
  simp only [softNarrow]
  rw [if_neg (by simpa [List.isEmpty_iff] using hne)]

theorem softNarrow_ne_nil {cand : List Nat} {p : Nat → Bool} (h : cand ≠ []) :
    softNarrow cand p ≠ [] := by
  simp only [softNarrow]
  split
  · exact h
  · rename_i hne
    simpa [List.isEmpty_iff] using hne

theorem keywordFilter_ne_nil (wratio : String → String → Int) (meta : List MetaRow)
    (q : String) (allowed : List String) (k : Nat) (h : meta ≠ []) :
    keywordFilter wratio meta q allowed k ≠ [] := by
  simp only [keywordFilter]
  split
  · simpa [List.range_eq_nil, List.length_eq_zero] using h
  · rename_i hne
    simpa [List.isEmpty_iff] using hne

theorem widenExact_ne_nil {meta : List MetaRow} {allowed : List String}
    {cand : List Nat} {hmo tier : Option String} (h : cand ≠ []) :
    widenExact meta allowed cand hmo tier ≠ [] := by
  simp only [widenExact]
  split
  · split
    · exact unionIdx_ne_nil_left h
    · exact h
  · exact h

theorem narrowHmo_ne_nil {meta : List MetaRow} {cand : List Nat} {hmo : Option String}
    (h : cand ≠ []) : narrowHmo meta cand hmo ≠ [] := by
  simp only [narrowHmo]
  split
  · exact softNarrow_ne_nil h
  · exact h

theorem narrowTier_ne_nil {meta : List MetaRow} {cand : List Nat} {tier : Option String}
    (h : cand ≠ []) : narrowTier meta cand tier ≠ [] := by
  simp only [narrowTier]
  split
  · exact softNarrow_ne_nil h
  · exact h

theorem safetyFloor_ne_nil {meta : List MetaRow} {cand : List Nat} (h : meta ≠ []) :
    safetyFloor meta cand ≠ [] := by
  simp only [safetyFloor]
  split
  · simpa [List.range_eq_nil, List.length_eq_zero] using h
  · rename_i hne
    simpa [List.isEmpty_iff] using hne

theorem backfill_ne_nil {meta : List MetaRow} {allowed : List String}
    {cand : List Nat} {hmo tier : Option String} (h : cand ≠ []) :
    backfill meta allowed cand hmo tier ≠ [] := by
  simp only [backfill]
  split
  · split
    · exact unionIdx_ne_nil_left h
    · exact h
  · exact h

theorem candidatesForRerank_ne_nil (wratio : String → String → Int)
    (meta : List MetaRow) (query : String) (hmo tier : Option String)
    (h : meta ≠ []) : candidatesForRerank wratio meta query hmo tier ≠ [] := by
  simp only [candidatesForRerank]
  exact backfill_ne_nil (safetyFloor_ne_nil h)

theorem mem_enum_self {α : Type} (l : List α) (i : Nat) (h : i < l.length) :
    (i, l[i]) ∈ l.enum := by
  rw [List.mem_enum_iff_getElem?]
  exact List.getElem?_eq_getElem h

theorem metaAt_eq_getElem {meta : List MetaRow} {i : Nat} (h : i < meta.length) :
    metaAt meta i = meta[i] := by
  simp [metaAt, List.getD_eq_getElem?_getD, List.getElem?_eq_getElem h]

theorem mem_tierPoolOf {meta : List MetaRow} {allowed : List String}
    {hmo tier : Option String} {i : Nat} (h : i < meta.length)
    (hg : (allowed.isEmpty || allowed.contains (metaAt meta i).source) = true)
    (hh : (metaAt meta i).hmo = hintVal hmo)
    (ht : (metaAt meta i).tier = hintVal tier) :
    i ∈ tierPoolOf meta allowed hmo tier := by
  have hAt : metaAt meta i = meta[i] := metaAt_eq_getElem h
  refine List.mem_map.mpr ⟨(i, meta[i]), List.mem_filter.mpr ⟨mem_enum_self meta i h, ?_⟩, rfl⟩
  simp only [← hAt]
  rw [Bool.and_eq_true, Bool.and_eq_true]
  refine ⟨⟨hg, ?_⟩, ?_⟩
  · exact beq_iff_eq.mpr hh
  · exact beq_iff_eq.mpr ht

theorem tierPoolOf_exact {meta : List MetaRow} {allowed : List String}
    {hmo tier : Option String} {i : Nat}
    (hi : i ∈ tierPoolOf meta allowed hmo tier) :
    (metaAt meta i).hmo = hintVal hmo ∧ (metaAt meta i).tier = hintVal tier := by
  rcases List.mem_map.mp hi with ⟨⟨n, m⟩, hmem, rfl⟩
  rcases List.mem_filter.mp hmem with ⟨henum, hcond⟩
  have hget : meta[n]? = some m := List.mem_enum_iff_getElem?.mp henum
  have hAt : metaAt meta (n, m).1 = m := by
    simp [metaAt, List.getD_eq_getElem?_getD, hget]
  rw [Bool.and_eq_true, Bool.and_eq_true] at hcond
  rw [hAt]
  exact ⟨beq_iff_eq.mp hcond.1.2, beq_iff_eq.mp hcond.2⟩

theorem widenExact_keep {meta : List MetaRow} {allowed : List String}
    {cand : List Nat} {hmo tier : Option String} {i0 : Nat}
    (hboth : (truthy hmo && truthy tier) = true)
    (hi0 : i0 ∈ tierPoolOf meta allowed hmo tier) :
    i0 ∈ widenExact meta allowed cand hmo tier := by
  simp only [widenExact, hboth, if_true]
  have hne : (tierPoolOf meta allowed hmo tier).isEmpty = false :=
    List.isEmpty_eq_false.mpr (List.ne_nil_of_mem hi0)
  rw [hne]
  simp only [Bool.not_false, if_true]
  exact mem_unionIdx_right hi0

theorem narrowHmo_keep (meta : List MetaRow) {cand : List Nat} (hmo : Option String)
    {i0 : Nat} (hhm : truthy hmo = true) (h : i0 ∈ cand)
    (hp : ((metaAt meta i0).hmo == hintVal hmo) = true) :
    i0 ∈ narrowHmo meta cand hmo ∧
      ∀ j ∈ narrowHmo meta cand hmo,
        ((metaAt meta j).hmo == hintVal hmo) = true ∧ j ∈ cand := by
  simp only [narrowHmo, hhm, if_true]
  rw [softNarrow_of_mem h hp]
  refine ⟨List.mem_filter.mpr ⟨h, hp⟩, ?_⟩
  intro j hj
  exact ⟨(List.mem_filter.mp hj).2, (List.mem_filter.mp hj).1⟩

theorem narrowTier_keep (meta : List MetaRow) {cand : List Nat} (tier : Option String)
    {i0 : Nat} (htr : truthy tier = true) (h : i0 ∈ cand)
    (hp : ((metaAt meta i0).tier == hintVal tier) = true) :
    i0 ∈ narrowTier meta cand tier ∧
      ∀ j ∈ narrowTier meta cand tier,
        ((metaAt meta j).tier == hintVal tier) = true ∧ j ∈ cand := by
  simp only [narrowTier, htr, if_true]
  rw [softNarrow_of_mem h hp]
  refine ⟨List.mem_filter.mpr ⟨h, hp⟩, ?_⟩
  intro j hj
  exact ⟨(List.mem_filter.mp hj).2, (List.mem_filter.mp hj).1⟩

theorem safetyFloor_id {meta : List MetaRow} {cand : List Nat} (h : cand ≠ []) :
    safetyFloor meta cand = cand := by
  simp only [safetyFloor]
  rw [if_neg]
  simp only [List.isEmpty_iff]
  exact h

theorem backfill_id_of_exact {meta : List MetaRow} {allowed : List String}
    {cand : List Nat} {hmo tier : Option String} {i0 : Nat}
    (hboth : (truthy hmo && truthy tier) = true) (hi0 : i0 ∈ cand)
    (hpH : ((metaAt meta i0).hmo == hintVal hmo) = true)
    (hpT : ((metaAt meta i0).tier == hintVal tier) = true) :
    backfill meta allowed cand hmo tier = cand := by
  simp only [backfill, hboth, if_true]
  rw [if_neg]
  simp only [List.isEmpty_iff]
  intro hc
  have hmem : i0 ∈ cand.filter (fun i =>
      (metaAt meta i).hmo == hintVal hmo && (metaAt meta i).tier == hintVal tier) := by
    refine List.mem_filter.mpr ⟨hi0, ?_⟩
    rw [Bool.and_eq_true]
    exact ⟨hpH, hpT⟩
  rw [hc] at hmem
  exact (List.not_mem_nil _) hmem

/-- Exactness propagates through the candidate pipeline: when both hints
are truthy and the widening pool is inhabited, every candidate handed to the
re-rank matches both hints exactly, and there is at least one. -/
theorem candidatesForRerank_exact (wratio : String → String → Int)
    (meta : List MetaRow) (query : String) (hmo tier : Option String)
    (hhm : truthy hmo = true) (htr : truthy tier = true) (i0 : Nat)
    (hi0 : i0 ∈ tierPoolOf meta (allowedSourcesForQuery query) hmo tier) :
    candidatesForRerank wratio meta query hmo tier ≠ [] ∧
      ∀ j ∈ candidatesForRerank wratio meta query hmo tier,
        (metaAt meta j).hmo = hintVal hmo ∧ (metaAt meta j).tier = hintVal tier := by
  have hex := tierPoolOf_exact hi0
  have hboth : (truthy hmo && truthy tier) = true := by rw [hhm, htr]; rfl
  have hpH : ((metaAt meta i0).hmo == hintVal hmo) = true := beq_iff_eq.mpr hex.1
  have hpT : ((metaAt meta i0).tier == hintVal tier) = true := beq_iff_eq.mpr hex.2
  have h1 : i0 ∈ widenExact meta (allowedSourcesForQuery query)
      (keywordFilter wratio meta query (allowedSourcesForQuery query) 200) hmo tier :=
    widenExact_keep hboth hi0
  obtain ⟨h2, h2all⟩ := narrowHmo_keep meta hmo hhm h1 hpH
  obtain ⟨h3, h3all⟩ := narrowTier_keep meta tier htr h2 hpT
  have hne3 : narrowTier meta (narrowHmo meta (widenExact meta (allowedSourcesForQuery query)
      (keywordFilter wratio meta query (allowedSourcesForQuery query) 200) hmo tier) hmo)
      tier ≠ [] := List.ne_nil_of_mem h3
  have h4 := @safetyFloor_id meta _ hne3
  have h5 := @backfill_id_of_exact meta (allowedSourcesForQuery query) _ hmo tier i0
    hboth h3 hpH hpT
  simp only [candidatesForRerank, h4, h5]
  refine ⟨hne3, ?_⟩
  intro j hj
  obtain ⟨hjt, hj2⟩ := h3all j hj
  obtain ⟨hjh, _⟩ := h2all j hj2
  exact ⟨beq_iff_eq.mp hjh, beq_iff_eq.mp hjt⟩

/-! ## Lemmas about `search` -/

theorem search_ok_eq (wratio : String → String → Int)
    (qsim : String → Option (Nat → Int)) (meta : List MetaRow) (query : String)
    (hmo tier : Option String) (topK : Nat) (rs : List SearchResult)
    (sim : Nat → Int) (hq : qsim (augmentQuery query hmo tier) = some sim)
    (hres : search wratio qsim meta query hmo tier topK = Except.ok rs) :
    rs = selectDiverse meta topK
      ((sortDesc ((candidatesForRerank wratio meta query hmo tier).map
        (fun mi => (mi, boostedScore sim meta hmo tier mi)))).take (max (topK * 2) 10))
      [] [] := by
  simp only [search, hq] at hres
  injection hres with h
  exact h.symm

theorem search_error_of_qsim_none (wratio : String → String → Int)
    (qsim : String → Option (Nat → Int)) (meta : List MetaRow) (query : String)
    (hmo tier : Option String) (topK : Nat)
    (hq : qsim (augmentQuery query hmo tier) = none) :
    search wratio qsim meta query hmo tier topK =
      Except.error "UpstreamServiceError: embedding retries exhausted" := by
  simp [search, hq]

theorem search_qsim_some_of_ok (wratio : String → String → Int)
    (qsim : String → Option (Nat → Int)) (meta : List MetaRow) (query : String)
    (hmo tier : Option String) (topK : Nat) (rs : List SearchResult)
    (hres : search wratio qsim meta query hmo tier topK = Except.ok rs) :
    ∃ sim, qsim (augmentQuery query hmo tier) = some sim := by
  cases hq : qsim (augmentQuery query hmo tier) with
  | none =>
    rw [search_error_of_qsim_none wratio qsim meta query hmo tier topK hq] at hres
    exact absurd hres (by simp)
  | some sim => exact ⟨sim, rfl⟩

theorem search_mem_from_candidates (wratio : String → String → Int)
    (qsim : String → Option (Nat → Int)) (meta : List MetaRow) (query : String)
    (hmo tier : Option String) (topK : Nat) (rs : List SearchResult)
    (sim : Nat → Int) (hq : qsim (augmentQuery query hmo tier) = some sim)
    (hres : search wratio qsim meta query hmo tier topK = Except.ok rs)
    (r : SearchResult) (hr : r ∈ rs) :
    ∃ mi ∈ candidatesForRerank wratio meta query hmo tier,
      r = mkResult meta (mi, boostedScore sim meta hmo tier mi) := by
  rw [search_ok_eq wratio qsim meta query hmo tier topK rs sim hq hres] at hr
  rcases selectDiverse_mem meta topK _ _ _ r hr with hacc | ⟨p, hp, hpe⟩
  · exact absurd hacc (List.not_mem_nil _)
  · have hp2 : p ∈ sortDesc ((candidatesForRerank wratio meta query hmo tier).map
        (fun mi => (mi, boostedScore sim meta hmo tier mi))) :=
      List.take_subset _ _ hp
    have hp3 := (sortDesc_perm _).mem_iff.mp hp2
    rcases List.mem_map.mp hp3 with ⟨mi, hmi, hmieq⟩
    exact ⟨mi, hmi, by rw [hpe, ← hmieq]⟩

theorem search_ok_ne_nil (wratio : String → String → Int)
    (qsim : String → Option (Nat → Int)) (meta : List MetaRow) (query : String)
    (hmo tier : Option String) (topK : Nat) (rs : List SearchResult)
    (sim : Nat → Int) (hq : qsim (augmentQuery query hmo tier) = some sim)
    (hres : search wratio qsim meta query hmo tier topK = Except.ok rs)
    (hcand : candidatesForRerank wratio meta query hmo tier ≠ []) : rs ≠ [] := by
  rw [search_ok_eq wratio qsim meta query hmo tier topK rs sim hq hres]
  apply selectDiverse_ne_nil
  rw [Ne, List.take_eq_nil_iff]
  push_neg
  constructor
  · have h10 : 10 ≤ max (topK * 2) 10 := Nat.le_max_right _ _
    omega
  · intro hnil
    have := (sortDesc_perm ((candidatesForRerank wratio meta query hmo tier).map
      (fun mi => (mi, boostedScore sim meta hmo tier mi)))).length_eq
    rw [hnil] at this
    simp only [List.length_nil, List.length_map] at this
    exact hcand (List.length_eq_zero.mp this.symm)

theorem candidatesForRerank_nil (wratio : String → String → Int) (query : String)
    (hmo tier : Option String) :
    candidatesForRerank wratio [] query hmo tier = [] := by
  simp only [candidatesForRerank]
  have h0 : keywordFilter wratio [] query (allowedSourcesForQuery query) 200 = [] := rfl
  rw [h0]
  have h1 : widenExact [] (allowedSourcesForQuery query) [] hmo tier = [] := by
    simp only [widenExact]
    split
    · rfl
    · rfl
  rw [h1]
  have h2 : narrowHmo [] [] hmo = [] := by
    simp only [narrowHmo]
    split
    · rfl
    · rfl
  rw [h2]
  have h3 : narrowTier [] [] tier = [] := by
    simp only [narrowTier]
    split
    · rfl
    · rfl
  rw [h3]
  have h4 : safetyFloor [] [] = [] := rfl
  rw [h4]
  simp only [backfill]
  split
  · split
    · split
      · rfl
      · rfl
    · rfl
  · rfl

/-! ## Claim theorems: the retriever -/

/-- C1 (counterexample): the claim as stated fails.  With category gating
active (query "dental" gates to the dental source file), an exact
payer+tier row that lives in a different source file is excluded from the
widening pool, the candidates and the results: the knowledge base contains
an exact match, yet no returned result matches both hints. -/
theorem search_misses_exact_match_outside_gated_sources :
    (∃ m ∈ [(⟨"מרפאות שיניים", "ניקוי אבנית", "מכבי", "כסף", "t0", "dentel_services.html"⟩ : MetaRow),
            ⟨"אופטומטריה", "עדשות", "מכבי", "זהב", "t1", "optometry_services.html"⟩],
        m.hmo = "מכבי" ∧ m.tier = "זהב") ∧
    search (fun _ _ => 50) (fun _ => some (fun _ => 1))
      [⟨"מרפאות שיניים", "ניקוי אבנית", "מכבי", "כסף", "t0", "dentel_services.html"⟩,
       ⟨"אופטומטריה", "עדשות", "מכבי", "זהב", "t1", "optometry_services.html"⟩]
      "dental" (some "מכבי") (some "זהב") 10 =
      Except.ok [⟨11500, "מרפאות שיניים", "ניקוי אבנית", "מכבי", "כסף", "t0", "dentel_services.html"⟩] ∧
    ∀ r ∈ [(⟨11500, "מרפאות שיניים", "ניקוי אבנית", "מכבי", "כסף", "t0", "dentel_services.html"⟩ : SearchResult)],
      ¬(r.hmo = "מכבי" ∧ r.tier = "זהב") :=
  ⟨by decide, by rfl, by decide⟩

/-- C1 (amended): if at least one row *within the query's gated sources*
(or any row, when the query gates nothing) exactly matches both truthy
hints, then the result sequence of a successful `search` contains at least
one result whose payer and tier equal the hints. -/
theorem search_includes_exact_match_within_gated_sources
    (wratio : String → String → Int) (qsim : String → Option (Nat → Int))
    (meta : List MetaRow) (query : String) (hmo tier : Option String)
    (topK : Nat) (rs : List SearchResult)
    (hhm : truthy hmo = true) (htr : truthy tier = true)
    (hex : ∃ i, i < meta.length ∧
      (((allowedSourcesForQuery query).isEmpty
        || (allowedSourcesForQuery query).contains (metaAt meta i).source) = true) ∧
      (metaAt meta i).hmo = hintVal hmo ∧ (metaAt meta i).tier = hintVal tier)
    (hres : search wratio qsim meta query hmo tier topK = Except.ok rs) :
    ∃ r ∈ rs, r.hmo = hintVal hmo ∧ r.tier = hintVal tier := by
  obtain ⟨i0, hlt, hg, hh, ht⟩ := hex
  have hpool := mem_tierPoolOf hlt hg hh ht
  obtain ⟨hcne, hall⟩ :=
    candidatesForRerank_exact wratio meta query hmo tier hhm htr i0 hpool
  obtain ⟨sim, hq⟩ :=
    search_qsim_some_of_ok wratio qsim meta query hmo tier topK rs hres
  have hrsne :=
    search_ok_ne_nil wratio qsim meta query hmo tier topK rs sim hq hres hcne
  obtain ⟨r0, hr0⟩ := List.exists_mem_of_ne_nil rs hrsne
  obtain ⟨mi, hmi, hr0eq⟩ :=
    search_mem_from_candidates wratio qsim meta query hmo tier topK rs sim hq hres r0 hr0
  refine ⟨r0, hr0, ?_⟩
  have hm := hall mi hmi
  rw [hr0eq]
  exact ⟨hm.1, hm.2⟩

/-- C1 (witness): a one-row knowledge base with an exact match, an ungated
query, and both hints present — the theorem applies and the single result
is the exact match. -/
theorem search_includes_exact_match_within_gated_sources_witness :
    truthy (some "מכבי") = true ∧ truthy (some "זהב") = true ∧
    search (fun _ _ => 50) (fun _ => some (fun i => (i : Int)))
      [⟨"c", "s", "מכבי", "זהב", "t", "f.html"⟩] "hello" (some "מכבי") (some "זהב") 3 =
      Except.ok [⟨0, "c", "s", "מכבי", "זהב", "t", "f.html"⟩] ∧
    (∃ r ∈ [(⟨0, "c", "s", "מכבי", "זהב", "t", "f.html"⟩ : SearchResult)],
      r.hmo = hintVal (some "מכבי") ∧ r.tier = hintVal (some "זהב")) :=
  ⟨by decide, by decide, by rfl,
    search_includes_exact_match_within_gated_sources
      (fun _ _ => 50) (fun _ => some (fun i => (i : Int)))
      [⟨"c", "s", "מכבי", "זהב", "t", "f.html"⟩] "hello" (some "מכבי") (some "זהב") 3
      [⟨0, "c", "s", "מכבי", "זהב", "t", "f.html"⟩]
      (by decide) (by decide) ⟨0, by decide⟩ (by rfl)⟩

/-- C2: every successful `search` with a positive `top_k` returns at most
`top_k` results, no two results share the `(service, payer, tier)` key, and
the results appear in non-increasing boosted-score order. -/
theorem search_topk_diversity_order (wratio : String → String → Int)
    (qsim : String → Option (Nat → Int)) (meta : List MetaRow) (query : String)
    (hmo tier : Option String) (topK : Nat) (rs : List SearchResult)
    (hk : 1 ≤ topK)
    (hres : search wratio qsim meta query hmo tier topK = Except.ok rs) :
    rs.length ≤ topK ∧ (rs.map resultKeyR).Nodup ∧
      rs.Pairwise (fun a b => b.score ≤ a.score) := by
  obtain ⟨sim, hq⟩ :=
    search_qsim_some_of_ok wratio qsim meta query hmo tier topK rs hres
  rw [search_ok_eq wratio qsim meta query hmo tier topK rs sim hq hres]
  refine ⟨?_, ?_, ?_⟩
  · exact selectDiverse_length meta topK _ [] [] (by simpa using hk)
  · exact selectDiverse_keys_nodup meta topK _ [] [] (by simp) (by simp)
  · refine selectDiverse_sorted meta topK _ [] [] ?_ (by simp) (by simp)
    exact (sortDesc_pairwise _).sublist (List.take_sublist _ _)

/-- C2 (witness): a two-row knowledge base, `top_k = 2`, no hints — the
theorem applies to the concrete output. -/
theorem search_topk_diversity_order_witness :
    1 ≤ 2 ∧
    search (fun _ _ => 0) (fun _ => some (fun i => -(i : Int)))
      [⟨"c1", "s1", "h1", "t1", "x1", "f1"⟩, ⟨"c2", "s2", "h2", "t2", "x2", "f2"⟩]
      "x" none none 2 =
      Except.ok [⟨0, "c1", "s1", "h1", "t1", "x1", "f1"⟩,
                 ⟨-10000, "c2", "s2", "h2", "t2", "x2", "f2"⟩] ∧
    ([(⟨0, "c1", "s1", "h1", "t1", "x1", "f1"⟩ : SearchResult),
      ⟨-10000, "c2", "s2", "h2", "t2", "x2", "f2"⟩].length ≤ 2 ∧
     ([(⟨0, "c1", "s1", "h1", "t1", "x1", "f1"⟩ : SearchResult),
       ⟨-10000, "c2", "s2", "h2", "t2", "x2", "f2"⟩].map resultKeyR).Nodup ∧
     [(⟨0, "c1", "s1", "h1", "t1", "x1", "f1"⟩ : SearchResult),
      ⟨-10000, "c2", "s2", "h2", "t2", "x2", "f2"⟩].Pairwise
        (fun a b => b.score ≤ a.score)) :=
  ⟨by decide, by rfl,
    search_topk_diversity_order (fun _ _ => 0) (fun _ => some (fun i => -(i : Int)))
      [⟨"c1", "s1", "h1", "t1", "x1", "f1"⟩, ⟨"c2", "s2", "h2", "t2", "x2", "f2"⟩]
      "x" none none 2 _ (by decide) (by rfl)⟩

/-- C3: over a non-empty knowledge base the candidate list handed to the
semantic re-rank is never empty, and a soft narrowing step whose filter
matches nothing leaves the candidate list unchanged. -/
theorem search_candidates_never_empty (wratio : String → String → Int)
    (meta : List MetaRow) (query : String) (hmo tier : Option String)
    (hne : meta ≠ []) :
    candidatesForRerank wratio meta query hmo tier ≠ [] ∧
      ∀ (cand : List Nat) (p : Nat → Bool),
        cand.filter p = [] → softNarrow cand p = cand :=
  ⟨candidatesForRerank_ne_nil wratio meta query hmo tier hne,
   fun _ _ h => softNarrow_of_filter_nil h⟩

/-- C3 (witness): a concrete one-row knowledge base with hints that match
nothing — the candidates are still non-empty. -/
theorem search_candidates_never_empty_witness :
    ([(⟨"c", "s", "h", "t", "x", "f"⟩ : MetaRow)] ≠ []) ∧
    (candidatesForRerank (fun _ _ => 7) [⟨"c", "s", "h", "t", "x", "f"⟩]
        "query" (some "nope") (some "nada") ≠ [] ∧
      ∀ (cand : List Nat) (p : Nat → Bool),
        cand.filter p = [] → softNarrow cand p = cand) :=
  ⟨by decide,
    search_candidates_never_empty (fun _ _ => 7) [⟨"c", "s", "h", "t", "x", "f"⟩]
      "query" (some "nope") (some "nada") (by decide)⟩

/-- C6: when the embedding oracle fails (retries exhausted), `search`
propagates the failure instead of returning a result sequence; when the
knowledge base is empty and the embedding succeeds, `search` returns the
empty sequence. -/
theorem search_embed_failure_and_empty_kb (wratio : String → String → Int)
    (qsim : String → Option (Nat → Int)) (meta : List MetaRow) (query : String)
    (hmo tier : Option String) (topK : Nat) :
    (qsim (augmentQuery query hmo tier) = none →
      search wratio qsim meta query hmo tier topK =
        Except.error "UpstreamServiceError: embedding retries exhausted") ∧
    (∀ sim, meta = [] → qsim (augmentQuery query hmo tier) = some sim →
      search wratio qsim meta query hmo tier topK = Except.ok []) := by
  constructor
  · intro hq
    exact search_error_of_qsim_none wratio qsim meta query hmo tier topK hq
  · intro sim hmeta hq
    subst hmeta
    simp only [search, hq, candidatesForRerank_nil, List.map_nil, sortDesc, List.take_nil]
    rfl

/-- C6 (witness): a failing embedding oracle yields the error; an empty
knowledge base with a working oracle yields the empty result list. -/
theorem search_embed_failure_and_empty_kb_witness :
    search (fun _ _ => 1) (fun _ => none) [⟨"c", "s", "h", "t", "x", "f"⟩]
      "q" none none 5 =
      Except.error "UpstreamServiceError: embedding retries exhausted" ∧
    search (fun _ _ => 1) (fun _ => some (fun _ => 0)) [] "q" none none 5 =
      Except.ok [] :=
  ⟨(search_embed_failure_and_empty_kb (fun _ _ => 1) (fun _ => none)
      [⟨"c", "s", "h", "t", "x", "f"⟩] "q" none none 5).1 rfl,
   (search_embed_failure_and_empty_kb (fun _ _ => 1) (fun _ => some (fun _ => 0))
      [] "q" none none 5).2 (fun _ => 0) rfl rfl⟩

/-! ## Claim theorems: the extractor -/

theorem dedupFirst_subset {α : Type} [BEq α] :
    ∀ (l seen : List α) (x : α), x ∈ dedupFirst l seen → x ∈ l := by
  intro l
  induction l with
  | nil => intro seen x hx; simp [dedupFirst] at hx
  | cons y rest ih =>
    intro seen x hx
    simp only [dedupFirst] at hx
    split at hx
    · exact List.mem_cons_of_mem _ (ih seen x hx)
    · rcases List.mem_cons.mp hx with rfl | h
      · exact List.mem_cons_self _ _
      · exact List.mem_cons_of_mem _ (ih _ x h)

theorem dedupFirst_not_mem_seen {α : Type} [BEq α] [LawfulBEq α] :
    ∀ (l seen : List α) (x : α), x ∈ dedupFirst l seen → x ∉ seen := by
  intro l
  induction l with
  | nil => intro seen x hx; simp [dedupFirst] at hx
  | cons y rest ih =>
    intro seen x hx
    simp only [dedupFirst] at hx
    split at hx
    · exact ih seen x hx
    · rename_i hns
      rcases List.mem_cons.mp hx with rfl | h
      · intro hmem
        exact hns (List.elem_eq_true_of_mem hmem)
      · intro hmem
        exact ih _ x h (List.mem_cons_of_mem _ hmem)

theorem dedupFirst_nodup {α : Type} [BEq α] [LawfulBEq α] :
    ∀ (l seen : List α), (dedupFirst l seen).Nodup := by
  intro l
  induction l with
  | nil => intro seen; simp [dedupFirst]
  | cons y rest ih =>
    intro seen
    simp only [dedupFirst]
    split
    · exact ih seen
    · refine List.nodup_cons.mpr ⟨?_, ih _⟩
      intro hmem
      exact dedupFirst_not_mem_seen rest (y :: seen) y hmem (List.mem_cons_self _ _)

theorem dedupFirst_ne_nil {α : Type} [BEq α] {l : List α} (h : l ≠ []) :
    dedupFirst l [] ≠ [] := by
  match l, h with
  | x :: rest, _ =>
    simp only [dedupFirst, List.contains_nil]
    simp

/-- C5: for every row list reaching the final step of `parse_html_file`
(hence for every parsed document), the returned rows contain no empty-text
row and no two rows agreeing on all six fields. -/
theorem parseDedup_no_empty_no_duplicates (rows : List MetaRow) :
    (∀ r ∈ parseDedup rows, ¬(r.text = "")) ∧ (parseDedup rows).Nodup := by
  constructor
  · intro r hr
    have hmem := dedupFirst_subset _ _ _ hr
    have := (List.mem_filter.mp hmem).2
    simp only [Bool.not_eq_true'] at this
    intro hc
    rw [hc] at this
    simp at this
  · exact dedupFirst_nodup _ _

theorem chunksFrom_shape (cs : List Char) :
    ∀ ms : List (String × Nat × Nat), ∀ seg ∈ chunksFrom cs ms,
      ∃ m ∈ ms, ∃ n, seg.2 = (⟨cleanChars ((cs.drop m.2.2).take n)⟩ : String) := by
  intro ms
  induction ms with
  | nil => intro seg hseg; simp [chunksFrom] at hseg
  | cons m rest ih =>
    intro seg hseg
    simp only [chunksFrom] at hseg
    split at hseg
    · rcases ih seg hseg with ⟨m2, hm2, n, hn⟩
      exact ⟨m2, List.mem_cons_of_mem _ hm2, n, hn⟩
    · rcases List.mem_cons.mp hseg with rfl | h
      · exact ⟨m, List.mem_cons_self _ _, _, rfl⟩
      · rcases ih seg h with ⟨m2, hm2, n, hn⟩
        exact ⟨m2, List.mem_cons_of_mem _ hm2, n, hn⟩

/-- C10 (counterexample): the claim as stated fails.  When the text has a
tier label but every post-label segment cleans to empty, `_explode_tiers`
falls back to emitting the whole cleaned text — including the text before
the first label — as a single untiered segment. -/
theorem explodeTiers_keeps_leading_text_before_labels :
    tierMatches "intro gold:".data ≠ [] ∧
    explodeTiers "intro gold:" = [("", "intro gold:")] ∧
    infixB "intro".data "intro gold:".data = true :=
  ⟨by decide, by rfl, by decide⟩

/-- C10 (amended): when the text contains a tier-label match and at least
one post-label segment survives cleaning, every emitted segment is the
cleaned form of a slice of the text starting at the end of some label match
— in particular no emitted segment starts before the first label.  (When
every post-label segment cleans to empty, the whole cleaned text is
returned as one untiered segment instead.) -/
theorem explodeTiers_segments_start_after_labels (text : String)
    (hm : tierMatches text.data ≠ [])
    (hc : chunksFrom text.data (tierMatches text.data) ≠ []) :
    ∀ seg ∈ explodeTiers text, ∃ m ∈ tierMatches text.data, ∃ n,
      seg.2 = (⟨cleanChars ((text.data.drop m.2.2).take n)⟩ : String) := by
  intro seg hseg
  have htext : (text == "") = false := by
    by_cases h : text = ""
    · subst h
      exact absurd rfl hm
    · exact beq_eq_false_iff_ne.mpr h
  have hmse : (tierMatches text.data).isEmpty = false := List.isEmpty_eq_false.mpr hm
  have huniq : (dedupFirst (chunksFrom text.data (tierMatches text.data))
      ([] : List (String × String))).isEmpty = false :=
    List.isEmpty_eq_false.mpr (dedupFirst_ne_nil hc)
  simp only [explodeTiers, htext, hmse, huniq, Bool.false_eq_true, if_false] at hseg
  have hchunk := dedupFirst_subset _ _ _ hseg
  exact chunksFrom_shape text.data (tierMatches text.data) seg hchunk

/-- C10 (witness): a text with one label and a surviving segment — the
theorem applies and its single emitted segment starts after the label. -/
theorem explodeTiers_segments_start_after_labels_witness :
    tierMatches "gold: a".data ≠ [] ∧
    chunksFrom "gold: a".data (tierMatches "gold: a".data) ≠ [] ∧
    ∀ seg ∈ explodeTiers "gold: a", ∃ m ∈ tierMatches "gold: a".data, ∃ n,
      seg.2 = (⟨cleanChars (("gold: a".data.drop m.2.2).take n)⟩ : String) :=
  ⟨by decide, by decide,
    explodeTiers_segments_start_after_labels "gold: a" (by decide) (by decide)⟩

/-! ## Claim theorems: the index builder -/

theorem mapOpt_length {α β : Type} (f : α → Option β) :
    ∀ (l : List α) (ys : List β), mapOpt f l = some ys → ys.length = l.length := by
  intro l
  induction l with
  | nil =>
    intro ys h
    simp only [mapOpt] at h
    injection h with h
    rw [← h]
    rfl
  | cons a as ih =>
    intro ys h
    simp only [mapOpt] at h
    cases hfa : f a with
    | none => rw [hfa] at h; simp at h
    | some b =>
      rw [hfa] at h
      cases hrec : mapOpt f as with
      | none => rw [hrec] at h; simp at h
      | some bs =>
        rw [hrec] at h
        injection h with h
        rw [← h]
        simp [ih bs hrec]

theorem mapOpt_getD {α β : Type} (f : α → Option β) (d : α) (d2 : β) :
    ∀ (l : List α) (ys : List β), mapOpt f l = some ys →
      ∀ i, i < l.length → f (l.getD i d) = some (ys.getD i d2) := by
  intro l
  induction l with
  | nil => intro ys _ i hi; simp at hi
  | cons a as ih =>
    intro ys h i hi
    simp only [mapOpt] at h
    cases hfa : f a with
    | none => rw [hfa] at h; simp at h
    | some b =>
      rw [hfa] at h
      cases hrec : mapOpt f as with
      | none => rw [hrec] at h; simp at h
      | some bs =>
        rw [hrec] at h
        injection h with h
        rw [← h]
        cases i with
        | zero => simpa using hfa
        | succ n =>
          simp only [List.getD_cons_succ]
          exact ih bs hrec n (by simpa using hi)

theorem mapOpt_append {α β : Type} (f : α → Option β) :
    ∀ (a b : List α) (va vb : List β), mapOpt f a = some va → mapOpt f b = some vb →
      mapOpt f (a ++ b) = some (va ++ vb) := by
  intro a
  induction a with
  | nil =>
    intro b va vb ha hb
    simp only [mapOpt] at ha
    injection ha with ha
    rw [← ha]
    simpa using hb
  | cons x xs ih =>
    intro b va vb ha hb
    simp only [mapOpt] at ha
    cases hfx : f x with
    | none => rw [hfx] at ha; simp at ha
    | some y =>
      rw [hfx] at ha
      cases hrec : mapOpt f xs with
      | none => rw [hrec] at ha; simp at ha
      | some ys =>
        rw [hrec] at ha
        injection ha with ha
        rw [← ha]
        have hrest := ih b ys vb hrec hb
        show (match f x, mapOpt f (xs ++ b) with
          | some b2, some bs => some (b2 :: bs)
          | _, _ => none) = some (y :: (ys ++ vb))
        rw [hfx, hrest]

theorem mapOpt_none_of_mem {α β : Type} (f : α → Option β) :
    ∀ (l : List α) (x : α), x ∈ l → f x = none → mapOpt f l = none := by
  intro l
  induction l with
  | nil => intro x hx; simp at hx
  | cons a as ih =>
    intro x hx hfx
    rcases List.mem_cons.mp hx with rfl | h
    · simp [mapOpt, hfx]
    · simp only [mapOpt, ih x h hfx]
      cases f a <;> rfl

theorem buildBatches_some (e : String → Option (List Int)) :
    ∀ (fuel : Nat) (rows : List MetaRow) (X : List (List Int)) (meta : List MetaRow),
      buildBatches e fuel rows = some (X, meta) →
      meta = rows.map indexMetaOf ∧
        mapOpt (fun r => e (makeChunkText r)) rows = some X := by
  intro fuel
  induction fuel with
  | zero =>
    intro rows X meta h
    cases rows with
    | nil =>
      simp only [buildBatches] at h
      injection h with h
      rw [← (Prod.mk.injEq _ _ _ _).mp h |>.1, ← (Prod.mk.injEq _ _ _ _).mp h |>.2]
      exact ⟨rfl, rfl⟩
    | cons r rest => simp [buildBatches] at h
  | succ n ih =>
    intro rows X meta h
    cases rows with
    | nil =>
      simp only [buildBatches] at h
      injection h with h
      rw [← (Prod.mk.injEq _ _ _ _).mp h |>.1, ← (Prod.mk.injEq _ _ _ _).mp h |>.2]
      exact ⟨rfl, rfl⟩
    | cons r rest =>
      simp only [buildBatches] at h
      cases hb : mapOpt (fun x => e (makeChunkText x)) (r :: rest.take 63) with
      | none => rw [hb] at h; simp at h
      | some vecs =>
        rw [hb] at h
        cases hrec : buildBatches e n (rest.drop 63) with
        | none => rw [hrec] at h; simp at h
        | some pr =>
          obtain ⟨xs, meta2⟩ := pr
          rw [hrec] at h
          injection h with h
          have hX : vecs ++ xs = X := ((Prod.mk.injEq _ _ _ _).mp h).1
          have hM : (r :: rest.take 63).map indexMetaOf ++ meta2 = meta :=
            ((Prod.mk.injEq _ _ _ _).mp h).2
          obtain ⟨hm2, hx2⟩ := ih (rest.drop 63) xs meta2 hrec
          constructor
          · rw [← hM, hm2, ← List.map_append]
            rw [show (r :: rest.take 63) ++ rest.drop 63 = r :: rest by
              rw [List.cons_append, List.take_append_drop]]
          · rw [← hX]
            rw [show (r :: rest) = (r :: rest.take 63) ++ rest.drop 63 by
              rw [List.cons_append, List.take_append_drop]]
            exact mapOpt_append _ _ _ _ _ hb hx2

/-- C4: a successfully built index has exactly one metadata record per
embedding vector, the metadata records are the six-field projections of the
input rows in input order, and the vector at position `i` is the embedding
of the canonical chunk text of the row at position `i`. -/
theorem buildIndex_parallel_consistency (e : String → Option (List Int))
    (rows : List MetaRow) (X : List (List Int)) (meta : List MetaRow)
    (hb : buildIndex e rows = some (X, meta)) :
    X.length = meta.length ∧ meta = rows.map indexMetaOf ∧
      ∀ i, i < rows.length →
        meta.getD i mRowDefault = indexMetaOf (rows.getD i mRowDefault) ∧
        e (makeChunkText (rows.getD i mRowDefault)) = some (X.getD i []) := by
  obtain ⟨hm, hx⟩ := buildBatches_some e rows.length rows X meta hb
  have hlen : X.length = rows.length := mapOpt_length _ _ _ hx
  refine ⟨by rw [hlen, hm, List.length_map], hm, ?_⟩
  intro i hi
  constructor
  · have hmi : i < meta.length := by rw [hm, List.length_map]; exact hi
    rw [List.getD_eq_getElem _ _ hmi, List.getD_eq_getElem _ _ hi]
    subst hm
    simp
  · exact mapOpt_getD _ mRowDefault [] rows X hx i hi

/-- C4 (witness): a one-row build with a length-counting embedding oracle —
the theorem applies to the concrete artifact. -/
theorem buildIndex_parallel_consistency_witness :
    buildIndex (fun s => some [(s.length : Int)]) [⟨"c", "s", "h", "t", "x", "f"⟩] =
      some ([[(24 : Int)]], [⟨"c", "s", "h", "t", "x", "f"⟩]) ∧
    (([[(24 : Int)]] : List (List Int)).length =
        ([(⟨"c", "s", "h", "t", "x", "f"⟩ : MetaRow)]).length ∧
      [(⟨"c", "s", "h", "t", "x", "f"⟩ : MetaRow)] =
        [(⟨"c", "s", "h", "t", "x", "f"⟩ : MetaRow)].map indexMetaOf ∧
      ∀ i, i < [(⟨"c", "s", "h", "t", "x", "f"⟩ : MetaRow)].length →
        [(⟨"c", "s", "h", "t", "x", "f"⟩ : MetaRow)].getD i mRowDefault =
          indexMetaOf ([(⟨"c", "s", "h", "t", "x", "f"⟩ : MetaRow)].getD i mRowDefault) ∧
        (fun s => some [(s.length : Int)])
            (makeChunkText ([(⟨"c", "s", "h", "t", "x", "f"⟩ : MetaRow)].getD i mRowDefault)) =
          some (([[(24 : Int)]] : List (List Int)).getD i [])) :=
  ⟨by rfl,
    buildIndex_parallel_consistency (fun s => some [(s.length : Int)])
      [⟨"c", "s", "h", "t", "x", "f"⟩] [[(24 : Int)]]
      [⟨"c", "s", "h", "t", "x", "f"⟩] (by rfl)⟩

theorem buildBatches_none_of_fail (e : String → Option (List Int)) :
    ∀ (fuel : Nat) (rows : List MetaRow) (r : MetaRow), r ∈ rows →
      e (makeChunkText r) = none → buildBatches e fuel rows = none := by
  intro fuel
  induction fuel with
  | zero =>
    intro rows r hr _
    cases rows with
    | nil => simp at hr
    | cons a as => rfl
  | succ n ih =>
    intro rows r hr hf
    cases rows with
    | nil => simp at hr
    | cons a as =>
      simp only [buildBatches]
      by_cases hbatch : r ∈ a :: as.take 63
      · rw [mapOpt_none_of_mem _ _ r hbatch hf]
      · have hrest : r ∈ as.drop 63 := by
          rcases List.mem_cons.mp hr with rfl | h
          · exact absurd (List.mem_cons_self _ _) hbatch
          · have := (List.take_append_drop 63 as) ▸ h
            rcases List.mem_append.mp this with h1 | h2
            · exact absurd (List.mem_cons_of_mem _ h1) hbatch
            · exact h2
        rw [ih (as.drop 63) r hrest hf]
        cases mapOpt (fun x => e (makeChunkText x)) (a :: as.take 63) <;> rfl

/-- C7: if the embedding of any input row's chunk text fails, the whole
index build fails and nothing is persisted (the artifact write in `main`
runs only after every batch has succeeded). -/
theorem buildIndex_aborts_on_embed_failure (e : String → Option (List Int))
    (rows : List MetaRow) (r : MetaRow) (hr : r ∈ rows)
    (hf : e (makeChunkText r) = none) : buildIndex e rows = none :=
  buildBatches_none_of_fail e rows.length rows r hr hf

/-- C7 (witness): a failing oracle on a one-row build — no artifact. -/
theorem buildIndex_aborts_on_embed_failure_witness :
    (⟨"c", "s", "h", "t", "x", "f"⟩ : MetaRow) ∈
      [(⟨"c", "s", "h", "t", "x", "f"⟩ : MetaRow)] ∧
    buildIndex (fun _ => none) [(⟨"c", "s", "h", "t", "x", "f"⟩ : MetaRow)] = none :=
  ⟨List.mem_cons_self _ _,
    buildIndex_aborts_on_embed_failure (fun _ => none) _ _
      (List.mem_cons_self _ _) rfl⟩

/-! ## Claim theorems: the router -/

/-- C8: with retrieval coming back empty, `answer_question` returns the
canned no-match answer with an empty snippet list, and its output does not
depend on the chat collaborator at all (the chat model is not consulted);
with non-empty retrieval, the snippets are forwarded to the chat
collaborator and returned alongside its answer. -/
theorem answerQuestion_empty_canned_nonempty_forwards
    (searchFn : String → Option String → Option String → Nat → List SearchResult)
    (messages : List ChatMsg) (p : Profile) (hint : Option String) (query : String)
    (hq : lastUserText messages = some query) :
    (searchFn query p.hmo p.tier 5 = [] →
      ∀ chatFn chatFn',
        answerQuestion searchFn chatFn true messages p hint =
          Except.ok ((if resolvedLang hint messages == "he"
            then NO_MATCH_HE else NO_MATCH_EN), []) ∧
        answerQuestion searchFn chatFn true messages p hint =
          answerQuestion searchFn chatFn' true messages p hint) ∧
    (searchFn query p.hmo p.tier 5 ≠ [] →
      ∀ chatFn,
        answerQuestion searchFn chatFn true messages p hint =
          Except.ok (chatFn messages
            (if resolvedLang hint messages == "he" then "he" else "en")
            (searchFn query p.hmo p.tier 5) p, searchFn query p.hmo p.tier 5)) := by
  constructor
  · intro hempty chatFn chatFn'
    constructor
    · simp [answerQuestion, hq, hempty]
    · simp [answerQuestion, hq, hempty]
  · intro hne chatFn
    have hie : (searchFn query p.hmo p.tier 5).isEmpty = false :=
      List.isEmpty_eq_false.mpr hne
    simp [answerQuestion, hq, hie]

/-- C8 (witness): an always-empty retriever — the canned answer comes back
with no snippets, identically for two different chat collaborators. -/
theorem answerQuestion_empty_canned_nonempty_forwards_witness :
    lastUserText [⟨"user", "hi"⟩] = some "hi" ∧
    (answerQuestion (fun _ _ _ _ => []) (fun _ _ _ _ => "a") true
        [⟨"user", "hi"⟩] {} none =
      Except.ok ((if resolvedLang none [⟨"user", "hi"⟩] == "he"
        then NO_MATCH_HE else NO_MATCH_EN), []) ∧
     answerQuestion (fun _ _ _ _ => []) (fun _ _ _ _ => "a") true
        [⟨"user", "hi"⟩] {} none =
      answerQuestion (fun _ _ _ _ => []) (fun _ _ _ _ => "b") true
        [⟨"user", "hi"⟩] {} none) :=
  ⟨rfl,
    (answerQuestion_empty_canned_nonempty_forwards (fun _ _ _ _ => [])
      [⟨"user", "hi"⟩] {} none "hi" rfl).1 rfl
      (fun _ _ _ _ => "a") (fun _ _ _ _ => "b")⟩

/-- A profile field is in canonical form with respect to a normaliser: if
the field is present and non-empty, its value is either unrecognised or a
fixed point of the normaliser. -/
def canonicalFor (f : String → Option String) (v : Option String) : Prop :=
  truthy v = true → f (hintVal v) = none ∨ f (hintVal v) = some (hintVal v)

/-- The payer and tier of a profile have been through normalisation. -/
def profileNormalized (p : Profile) : Prop :=
  canonicalFor normalizeHmo p.hmo ∧ canonicalFor normalizeTier p.tier

theorem normalizeHmo_canon {s c : String} (h : normalizeHmo s = some c) :
    normalizeHmo c = some c := by
  have hall : ∀ kv ∈ HMO_CANON, normalizeHmo kv.2 = some kv.2 := by decide
  unfold normalizeHmo at h
  cases hfind : HMO_CANON.find? (fun kv => kv.1.data == normChars s) with
  | none => rw [hfind] at h; simp at h
  | some kv =>
    rw [hfind] at h
    have h2 : some kv.2 = some c := h
    injection h2 with h2
    rw [← h2]
    exact hall kv (List.mem_of_find?_eq_some hfind)

theorem normalizeTier_canon {s c : String} (h : normalizeTier s = some c) :
    normalizeTier c = some c := by
  have hall : ∀ kv ∈ TIER_CANON, normalizeTier kv.2 = some kv.2 := by decide
  unfold normalizeTier at h
  cases hfind : TIER_CANON.find? (fun kv => kv.1.data == normChars s) with
  | none => rw [hfind] at h; simp at h
  | some kv =>
    rw [hfind] at h
    have h2 : some kv.2 = some c := h
    injection h2 with h2
    rw [← h2]
    exact hall kv (List.mem_of_find?_eq_some hfind)

theorem normalizeFieldStep_canonical (f : String → Option String)
    (errName errMsg : String) (v : Option String)
    (hcanon : ∀ s c, f s = some c → f c = some c) :
    canonicalFor f (normalizeFieldStep f errName errMsg v).2 := by
  simp only [normalizeFieldStep]
  by_cases ht : truthy v = true
  · rw [if_pos ht]
    cases hn : f (hintVal v) with
    | none =>
      intro _
      exact Or.inl hn
    | some c =>
      intro _
      exact Or.inr (hcanon (hintVal v) c hn)
  · rw [if_neg ht]
    intro hcontra
    exact absurd hcontra ht

theorem validateProfile_normalized (p : Profile) :
    profileNormalized (validateProfile p).2 := by
  constructor
  · exact normalizeFieldStep_canonical normalizeHmo "hmo" "Unknown HMO." p.hmo
      (fun s c h => normalizeHmo_canon h)
  · exact normalizeFieldStep_canonical normalizeTier "tier" "Unknown tier." p.tier
      (fun s c h => normalizeTier_canon h)

theorem processToolCalls_confirmed :
    ∀ (calls : List ToolCall) (p : Profile) (conf : Bool),
      (processToolCalls p conf calls).2 = true ↔
        conf = true ∨ ∃ c ∈ calls, c.ctype = "function" ∧ c.name = "submit_profile" := by
  intro calls
  induction calls with
  | nil =>
    intro p conf
    simp [processToolCalls]
  | cons c rest ih =>
    intro p conf
    simp only [processToolCalls]
    split
    · rename_i hc
      rw [Bool.and_eq_true] at hc
      rw [ih]
      constructor
      · intro _
        exact Or.inr ⟨c, List.mem_cons_self _ _,
          beq_iff_eq.mp hc.1, beq_iff_eq.mp hc.2⟩
      · intro _
        exact Or.inl rfl
    · rename_i hc
      rw [ih]
      constructor
      · intro h
        rcases h with h | ⟨c2, hc2, hp⟩
        · exact Or.inl h
        · exact Or.inr ⟨c2, List.mem_cons_of_mem _ hc2, hp⟩
      · intro h
        rcases h with h | ⟨c2, hc2, hp1, hp2⟩
        · exact Or.inl h
        · rcases List.mem_cons.mp hc2 with rfl | h2
          · exact absurd (by simp [hp1, hp2]) hc
          · exact Or.inr ⟨c2, h2, hp1, hp2⟩

theorem processToolCalls_normalized :
    ∀ (calls : List ToolCall) (p : Profile) (conf : Bool),
      (conf = true → profileNormalized p) →
      (processToolCalls p conf calls).2 = true →
      profileNormalized (processToolCalls p conf calls).1 := by
  intro calls
  induction calls with
  | nil =>
    intro p conf hpre hconf
    exact hpre hconf
  | cons c rest ih =>
    intro p conf hpre hconf
    simp only [processToolCalls] at hconf ⊢
    split at hconf
    · rename_i hc
      rw [show (if (c.ctype == "function" && c.name == "submit_profile") = true then
          processToolCalls (validateProfile (mergeArgs p (c.args.getD {}))).2 true rest
        else processToolCalls p conf rest) =
          processToolCalls (validateProfile (mergeArgs p (c.args.getD {}))).2 true rest
        from by rw [if_pos hc]]
      exact ih _ true (fun _ => validateProfile_normalized _) hconf
    · rename_i hc
      rw [show (if (c.ctype == "function" && c.name == "submit_profile") = true then
          processToolCalls (validateProfile (mergeArgs p (c.args.getD {}))).2 true rest
        else processToolCalls p conf rest) = processToolCalls p conf rest
        from by rw [if_neg hc]]
      exact ih p conf hpre hconf

/-- C9: `collect_user_info` reports `confirmed = true` exactly when the
model response contains a `submit_profile` function invocation, and in that
case the returned profile has been through merge + normalisation/validation
(its payer and tier values are canonical whenever recognisable). -/
theorem collectUserInfo_confirmed_iff_submit (choiceContent : Option String)
    (toolCalls : List ToolCall) (userProfile : Profile) :
    ((collectUserInfo choiceContent toolCalls userProfile).2.2 = true ↔
      ∃ c ∈ toolCalls, c.ctype = "function" ∧ c.name = "submit_profile") ∧
    ((collectUserInfo choiceContent toolCalls userProfile).2.2 = true →
      profileNormalized (collectUserInfo choiceContent toolCalls userProfile).2.1) := by
  by_cases he : toolCalls.isEmpty = true
  · have hnil : toolCalls = [] := List.isEmpty_iff.mp he
    subst hnil
    simp [collectUserInfo]
  · simp only [collectUserInfo, if_neg he]
    constructor
    · rw [processToolCalls_confirmed]
      simp
    · intro h
      exact processToolCalls_normalized toolCalls userProfile false
        (fun hc => absurd hc (by simp)) h

/-- C9 (witness): a response containing one `submit_profile` call with a
transliterated payer — the flag is set and the stored payer is canonical. -/
theorem collectUserInfo_confirmed_iff_submit_witness :
    (collectUserInfo none
      [⟨"function", "submit_profile", some { hmo := some "Maccabi" }⟩] {}).2.2 = true ∧
    profileNormalized (collectUserInfo none
      [⟨"function", "submit_profile", some { hmo := some "Maccabi" }⟩] {}).2.1 := by
  have h := collectUserInfo_confirmed_iff_submit none
    [⟨"function", "submit_profile", some { hmo := some "Maccabi" }⟩] {}
  have hflag := h.1.mpr ⟨⟨"function", "submit_profile", some { hmo := some "Maccabi" }⟩,
    List.mem_cons_self _ _, rfl, rfl⟩
  exact ⟨hflag, h.2 hflag⟩
